import Mathlib

/-!
Verification development for the SMOTE oversampling engine in `src/smote.py`
(Bank-Fraud-Analysis-Pyspark).

The PySpark pipeline is shallowly embedded as executable Lean functions:

* a dataset is a `List Row`; a `Row` carries a label, a numeric feature
  vector (the `features_for_model` column, over the exact fraction type `Q`),
  and the remaining already-encoded auxiliary columns; `id` models the row
  identity used for window partitioning and tie ordering (rows of a real
  dataframe are pairwise distinct as rows; `id` makes that explicit);
* the `BucketedRandomProjectionLSH` index is modelled by a deterministic
  seeded projection: two vectors collide iff they fall in the same bucket
  of width `bucketLength` along the seeded projection; `approxSimilarityJoin`
  with an infinite threshold then yields all colliding pairs;
* Euclidean distance is represented by its square `dist2` (the comparison
  with `0` and the ascending ranking are invariant under squaring, and `Q`
  keeps everything decidable);
* all randomness drawn during a run (the per-pair `F.rand()` selection
  draws, the per-synthesized-row `random.uniform(0,1)` interpolation factor,
  and the per-column `random.choice(['datasetA','datasetB'])` inheritance
  choices) is passed in explicitly, one `BatchRand` record per batch;
* `F.rand(seed)` used for the final shuffle and the `row_number()` windows
  are modelled by a deterministic per-position key and a stable sort;
* the two failure modes of the Python code (fitting the LSH on an empty
  minority set, and `reduce` over an empty batch list when
  `multiplier < 1`) surface as `Except.error`.
-/

namespace Smote

/-- Exact fraction arithmetic for the embedding. A value denotes
`num / (den1 + 1)`: the denominator is positive by construction and no
normalization (gcd) is performed, so every operation reduces inside the
kernel. This idealizes the engine's real-valued (floating point) feature
arithmetic as exact rational arithmetic. -/
structure Q where
  num : Int
  den1 : Nat
deriving DecidableEq, Repr

/-- The fraction denoting the integer `n`. -/
def Q.ofInt (n : Int) : Q := ⟨n, 0⟩

/-- Addition of fractions (no normalization). -/
def qadd (a b : Q) : Q :=
  ⟨a.num * (b.den1 + 1) + b.num * (a.den1 + 1), (a.den1 + 1) * (b.den1 + 1) - 1⟩

/-- Subtraction of fractions (no normalization). -/
def qsub (a b : Q) : Q :=
  ⟨a.num * (b.den1 + 1) - b.num * (a.den1 + 1), (a.den1 + 1) * (b.den1 + 1) - 1⟩

/-- Multiplication of fractions (no normalization). -/
def qmul (a b : Q) : Q := ⟨a.num * b.num, (a.den1 + 1) * (b.den1 + 1) - 1⟩

/-- Value order on fractions: cross-multiplication (denominators are
positive by construction). -/
def Q.lt (a b : Q) : Prop := a.num * (b.den1 + 1) < b.num * (a.den1 + 1)

/-- Value order (non-strict) on fractions. -/
def Q.le (a b : Q) : Prop := a.num * (b.den1 + 1) ≤ b.num * (a.den1 + 1)

instance (a b : Q) : Decidable (Q.lt a b) := Int.decLt _ _

instance (a b : Q) : Decidable (Q.le a b) := Int.decLe _ _

/-- A dataset row after vectorization: `label`, the assembled numeric
feature vector `features` (column `features_for_model`), and the remaining
auxiliary columns `aux` (string-indexed categoricals, identifiers), carried
opaquely. `id` is the engine row identity. -/
structure Row where
  id : Nat
  label : Int
  features : List Q
  aux : List Int
deriving DecidableEq, Repr

/-- Mirror of the Python `SmoteConfig` value object. `k` and `multiplier`
are integers, as the code applies `int(...)` to them. -/
structure SmoteConfig where
  seed : Nat
  bucketLength : Q
  k : Int
  multiplier : Int
  positive_label : Int
  negative_label : Int

/-- Elementwise vector subtraction (numpy `a - b` on densified arrays). -/
def vsub : List Q → List Q → List Q := List.zipWith (fun a b => qsub a b)

/-- Elementwise vector addition (numpy `a + b` on densified arrays). -/
def vadd : List Q → List Q → List Q := List.zipWith (fun a b => qadd a b)

/-- Scalar multiple of a vector. -/
def vsmul (c : Q) (v : List Q) : List Q := v.map (fun x => qmul c x)

/-- Embedding of `subtract_vector_fn`: given the drawn uniform factor `u`
it returns `u * (a - b)` where `a` is `arr[0]` (the `datasetA` = source
vector) and `b` is `arr[1]` (the `datasetB` = neighbor vector). -/
def subtract_vector_fn (u : Q) (a b : List Q) : List Q := vsmul u (vsub a b)

/-- Embedding of `add_vector_fn`: elementwise `a + b`. -/
def add_vector_fn (a b : List Q) : List Q := vadd a b

/-- Squared Euclidean distance between two feature vectors. The code ranks
by `EuclideanDistance` and filters `> 0`; both are invariant under the
monotone bijection between a nonnegative distance and its square. -/
def dist2 : List Q → List Q → Q
  | [], _ => Q.ofInt 0
  | _ :: _, [] => Q.ofInt 0
  | x :: xs, y :: ys => qadd (qmul (qsub x y) (qsub x y)) (dist2 xs ys)

/-- Deterministic pseudorandom projection coefficient derived from the LSH
seed; models the seeded random unit vector of `BucketedRandomProjectionLSH`. -/
def proj (seed : Nat) (i : Nat) : Q := Q.ofInt (((seed + 1) * (i + 2)) % 1009 + 1)

/-- Dot product of two vectors of fractions. -/
def dot : List Q → List Q → Q
  | [], _ => Q.ofInt 0
  | _ :: _, [] => Q.ofInt 0
  | x :: xs, y :: ys => qadd (qmul x y) (dot xs ys)

/-- Bucket index of a vector under the seeded random projection LSH with
bucket width `L`: the floor of `(projection value) / L`, computed by
flooring integer division of the cross-multiplied fraction. -/
def hashBucket (seed : Nat) (L : Q) (v : List Q) : Int :=
  let d := dot v ((List.range v.length).map (fun i => proj seed i))
  Int.fdiv (d.num * (L.den1 + 1)) ((d.den1 + 1) * L.num)

/-- Two vectors are joined by `approxSimilarityJoin` iff their LSH buckets
collide. Identical vectors always collide (same hash). -/
def collide (seed : Nat) (L : Q) (v w : List Q) : Bool :=
  decide (hashBucket seed L v = hashBucket seed L w)

/-- Ranking order used by the `row_number` window `partitionBy(datasetA)
.orderBy(EuclideanDistance)`: ascending (squared) distance from the source
`a`, ties broken by the engine row identity. -/
def candLE (a p q : Row) : Bool :=
  decide (Q.lt (dist2 a.features p.features) (dist2 a.features q.features) ∨
    (dist2 a.features p.features = dist2 a.features q.features ∧ p.id ≤ q.id))

/-- Insertion step of the per-source candidate sort. -/
def cinsert (a x : Row) : List Row → List Row
  | [] => [x]
  | y :: ys => if candLE a x y then x :: y :: ys else y :: cinsert a x ys

/-- Stable insertion sort of a source's candidate pairs by ascending
distance (the window ordering behind `r_num`). -/
def csort (a : Row) : List Row → List Row
  | [] => []
  | x :: xs => cinsert a x (csort a xs)

/-- Candidate pool of a source `a`: the rows of the minority set joined to
`a` by the LSH similarity join, after the `EuclideanDistance > 0` filter
that removes zero-distance pairs (in particular the self-pair). -/
def neighborPool (seed : Nat) (L : Q) (minority : List Row) (a : Row) : List Row :=
  minority.filter (fun b =>
    collide seed L a.features b.features &&
      decide (Q.lt (Q.ofInt 0) (dist2 a.features b.features)))

/-- Candidate list of a source `a`: its pool ranked by ascending distance,
truncated to the top `k` (`self_similarity_df.filter(r_num <= k)`); for
`k ≤ 0` the filter keeps nothing, matching `Int.toNat`. -/
def rankedCandidates (seed : Nat) (L : Q) (k : Int) (minority : List Row) (a : Row) :
    List Row :=
  (csort a (neighborPool seed L minority a)).take k.toNat

/-- Maximum of a list of rationals (`F.max('rand')` over a window partition),
`none` on the empty partition. -/
def listMax : List Q → Option Q
  | [] => none
  | x :: xs =>
      some (match listMax xs with | none => x | some m => if Q.le x m then m else x)

/-- Neighbor selection of one batch for one source `s`: every candidate
draws `rd s.id n.id` (the per-row `F.rand()` value) and the rows whose draw
equals the partition maximum are kept (`where(rand == max_rand)`). With
pairwise distinct draws this is a single row; a tie keeps every maximal row. -/
def selectNeighbors (rd : Nat → Nat → Q) (s : Row) (cs : List Row) : List Row :=
  match listMax (cs.map (fun n => rd s.id n.id)) with
  | none => []
  | some m => cs.filter (fun n => decide (rd s.id n.id = m))

/-- Which side of the joined pair a column is copied from:
`datasetA` is the source, `datasetB` the neighbor. -/
inductive Side
  | A
  | B
deriving DecidableEq, Repr

/-- Randomness consumed by one synthesis batch: `rd` the per-pair selection
draw, `u` the per-synthesized-row interpolation factor of
`random.uniform(0, 1)`, `side` the per-column `random.choice` between
`datasetA` and `datasetB` (drawn once per column for the batch). -/
structure BatchRand where
  rd : Nat → Nat → Q
  u : Nat → Nat → Q
  side : Nat → Side

/-- Value of a column copied from the chosen side of a pair. -/
def pickSide {α : Type} (s : Side) (x y : α) : α :=
  match s with
  | .A => x
  | .B => y

/-- Auxiliary-column inheritance: column `j` of the synthetic row is copied
wholesale from the side `side j` of the pair, one fixed choice per column. -/
def inheritAux (side : Nat → Side) : Nat → List Int → List Int → List Int
  | _, [], _ => []
  | _, _ :: _, [] => []
  | j, x :: xs, y :: ys => pickSide (side j) x y :: inheritAux side (j + 1) xs ys

/-- Synthetic feature vector: `add_vector_fn(datasetB.features, vec_diff)`
where `vec_diff = subtract_vector_fn(datasetA.features, datasetB.features)`,
i.e. `b + u * (a - b)` for source vector `a` and neighbor vector `b`. -/
def synthFeatures (u : Q) (a b : List Q) : List Q :=
  add_vector_fn b (subtract_vector_fn u a b)

/-- One synthetic row built from the pair (source `s`, neighbor `n`): the
features are interpolated, while the label column (column index 0) and each
auxiliary column (index `j + 1`) are copied from the batch's per-column side
choice, mirroring the loop over `original_cols`. -/
def synthRow (br : BatchRand) (s n : Row) : Row :=
  { id := s.id
    label := pickSide (br.side 0) s.label n.label
    features := synthFeatures (br.u s.id n.id) s.features n.features
    aux := inheritAux br.side 1 s.aux n.aux }

/-- One batch of synthetic instances: every source row of the minority set
contributes one synthetic row per selected neighbor (none when its candidate
list is empty). -/
def generateBatch (cands : Row → List Row) (br : BatchRand) : List Row → List Row
  | [] => []
  | s :: rest =>
      ((selectNeighbors br.rd s (cands s)).map (fun n => synthRow br s n)) ++
        generateBatch cands br rest

/-- Concatenation of the first `n` batches, in batch order (the
`reduce(DataFrame.union, res)` of the accumulated `res` list). -/
def allBatches (cands : Row → List Row) (rr : Nat → BatchRand) (minority : List Row) :
    Nat → List Row
  | 0 => []
  | n + 1 => allBatches cands rr minority n ++ generateBatch cands (rr n) minority

/-- Deterministic per-position key modelling the `F.rand(seed)` value used
to shuffle the minority-derived rows. -/
def shuffleKey (seed : Nat) (pos : Nat) : Nat := ((seed + 1) * (pos + 2)) % 101

/-- Stable insertion step for sorting key-tagged rows by ascending key. -/
def kinsert (x : Nat × Row) : List (Nat × Row) → List (Nat × Row)
  | [] => [x]
  | y :: ys => if x.1 ≤ y.1 then x :: y :: ys else y :: kinsert x ys

/-- Stable insertion sort of key-tagged rows by ascending key; models the
engine's `sort` by a numeric column. -/
def ksort : List (Nat × Row) → List (Nat × Row)
  | [] => []
  | x :: xs => kinsert x (ksort xs)

/-- Seeded shuffle `sort(F.rand(seed))`: tag each row with its seeded key
and sort by the key. -/
def shuffle (seed : Nat) (l : List Row) : List Row :=
  (ksort (((List.range l.length).map (fun i => shuffleKey seed i)).zip l)).map Prod.snd

/-- The `row_number()` window over a constant ordering: positions `n`,
`n + 1`, ... assigned in the order the rows appear. -/
def enumFrom : Nat → List Row → List (Nat × Row)
  | _, [] => []
  | n, r :: rs => (n, r) :: enumFrom (n + 1) rs

/-- The approximate-neighbor index a run constructs: the ranked candidate
list of every minority source. It is built from the config seed and the
input alone; the per-batch randomness `rr` of the run is not consumed,
which the argument makes explicit. -/
def smoteIndexOf (cfg : SmoteConfig) (_rr : Nat → BatchRand) (df : List Row) :
    Row → List Row :=
  fun s =>
    rankedCandidates cfg.seed cfg.bucketLength cfg.k
      (df.filter (fun r => decide (r.label = cfg.positive_label))) s

/-- All minority-derived rows before the shuffle: the `multiplier` synthetic
batches followed by the original minority rows
(`dfunion.union(dataInput_min)`). -/
def minorityDerived (cfg : SmoteConfig) (rr : Nat → BatchRand) (df : List Row) :
    List Row :=
  let dataInput_min := df.filter (fun r => decide (r.label = cfg.positive_label))
  allBatches (smoteIndexOf cfg rr df) rr dataInput_min cfg.multiplier.toNat ++
    dataInput_min

/-- Embedding of `smote`. The minority and majority partitions are the rows
labeled `positive_label` resp. `negative_label`; fitting the LSH on an
empty minority set raises, as does `reduce` over the empty batch list when
`multiplier < 1`; otherwise the shuffled minority-derived rows and the
majority rows each get 1-based `row_number` indices, are unioned, sorted by
that shared index, and the index column is dropped. -/
def smote (cfg : SmoteConfig) (rr : Nat → BatchRand) (df : List Row) :
    Except String (List Row) :=
  let dataInput_min := df.filter (fun r => decide (r.label = cfg.positive_label))
  let dataInput_maj := df.filter (fun r => decide (r.label = cfg.negative_label))
  if dataInput_min.isEmpty then
    Except.error "NoSuchElementException: next on empty iterator"
  else if cfg.multiplier ≤ 0 then
    Except.error "TypeError: reduce() of empty iterable with no initial value"
  else
    let dfunion := shuffle cfg.seed (minorityDerived cfg rr df)
    Except.ok ((ksort (enumFrom 1 dfunion ++ enumFrom 1 dataInput_maj)).map Prod.snd)

/-- Embedding of the validation at the head of `pre_smote_df_process`:
`df.select(target_col).distinct().count() != 2` raises a `ValueError`. The
rest of that function (string indexing, vector assembly) is the external
vectorization collaborator and is out of scope. `targets` is the target
column of the raw dataframe. -/
def pre_smote_label_check (targets : List Int) : Except String Unit :=
  if targets.dedup.length ≠ 2 then
    Except.error "Target col must have exactly 2 classes"
  else
    Except.ok ()

/-- The ordering property asserted for the final output: every row labeled
`pos` (minority-derived) precedes every row labeled `neg` (majority). -/
def minorityPrecedesMajority (pos neg : Int) (l : List Row) : Prop :=
  ∀ i j : Fin l.length, (l.get i).label = pos → (l.get j).label = neg → (i : Nat) < j

instance (pos neg : Int) (l : List Row) :
    Decidable (minorityPrecedesMajority pos neg l) :=
  Fintype.decidableForallFintype

/-! Concrete instances used by witnesses and counterexamples. -/

/-- Batch randomness with constant draws: every selection draw ties at `0`,
the interpolation factor is `1/2`, every column is copied from the source. -/
def rrZ : Nat → BatchRand :=
  fun _ => ⟨fun _ _ => Q.ofInt 0, fun _ _ => ⟨1, 1⟩, fun _ => Side.A⟩

/-- Batch randomness with pairwise distinct selection draws. -/
def rrW : Nat → BatchRand :=
  fun _ => ⟨fun s n => Q.ofInt (s * 3 + n), fun _ _ => ⟨1, 1⟩, fun _ => Side.A⟩

/-- Batch randomness alternating the per-column inheritance side. -/
def rrS : Nat → BatchRand :=
  fun _ =>
    ⟨fun s n => Q.ofInt (s * 3 + n), fun _ _ => ⟨1, 1⟩,
      fun j => if j % 2 = 0 then Side.A else Side.B⟩

/-- Minority instance A of the spec's concrete scenario. -/
def rA : Row := ⟨0, 1, [Q.ofInt 0, Q.ofInt 0], []⟩

/-- Minority instance B of the spec's concrete scenario. -/
def rB : Row := ⟨1, 1, [Q.ofInt 2, Q.ofInt 0], []⟩

/-- Majority instance C of the spec's concrete scenario. -/
def rC : Row := ⟨2, 0, [Q.ofInt 10, Q.ofInt 10], []⟩

/-- The spec's concrete scenario dataset. -/
def dfW : List Row := [rA, rB, rC]

/-- Configuration of the spec's concrete scenario: `k = 1`, `multiplier = 1`,
positive label `1`, negative label `0`, wide buckets. -/
def cfgW : SmoteConfig := ⟨0, Q.ofInt 1000000, 1, 1, 1, 0⟩

/-- A minority row whose feature vector is duplicated by `dup1`. -/
def dup0 : Row := ⟨0, 1, [Q.ofInt 0], []⟩

/-- A second minority row with the same feature vector as `dup0`. -/
def dup1 : Row := ⟨1, 1, [Q.ofInt 0], []⟩

/-- A majority row accompanying the duplicated minority rows. -/
def rMaj : Row := ⟨2, 0, [Q.ofInt 10], []⟩

/-- Dataset whose two minority rows share one feature vector: every minority
pair has distance `0` and is filtered out. -/
def dfDup : List Row := [dup0, dup1, rMaj]

/-- Dataset of three distinct minority rows and no majority row. -/
def dfTri : List Row := [⟨0, 1, [Q.ofInt 0], []⟩, ⟨1, 1, [Q.ofInt 2], []⟩, ⟨2, 1, [Q.ofInt 4], []⟩]

/-- Configuration with `k = 2` used for the tie counterexample. -/
def cfgTri : SmoteConfig := ⟨0, Q.ofInt 1000000, 2, 1, 1, 0⟩

/-- Valid two-class dataset with two distinct minority rows. -/
def dfK : List Row := [⟨0, 1, [Q.ofInt 0], []⟩, ⟨1, 1, [Q.ofInt 2], []⟩, ⟨2, 0, [Q.ofInt 10], []⟩]

/-- Configuration with `k = 0` (below the documented contract). -/
def cfgK0 : SmoteConfig := ⟨0, Q.ofInt 1000000, 0, 1, 1, 0⟩

/-- Configuration with `multiplier = 0` (below the documented contract). -/
def cfgM0 : SmoteConfig := ⟨0, Q.ofInt 1000000, 1, 0, 1, 0⟩

/-- Dataset with exactly one minority row. -/
def dfOne : List Row := [⟨0, 1, [Q.ofInt 0], []⟩, ⟨1, 0, [Q.ofInt 5], []⟩]

/-- Configuration used with the single-minority dataset. -/
def cfgOne : SmoteConfig := ⟨0, Q.ofInt 1000000, 3, 1, 1, 0⟩

/-- Dataset carrying a third label value `7` beside the configured two. -/
def dfThird : List Row :=
  [⟨0, 1, [Q.ofInt 0], []⟩, ⟨1, 1, [Q.ofInt 2], []⟩, ⟨2, 0, [Q.ofInt 10], []⟩,
    ⟨3, 7, [Q.ofInt 5], []⟩]

/-- Two minority rows with nonempty auxiliary columns. -/
def rXa : Row := ⟨0, 1, [Q.ofInt 0], [10, 20]⟩

/-- Second minority row with nonempty auxiliary columns. -/
def rXb : Row := ⟨1, 1, [Q.ofInt 2], [30, 40]⟩

/-- Dataset of the two aux-carrying minority rows. -/
def dfX : List Row := [rXa, rXb]

/-! Basic lemmas about the embedded operations. -/

theorem dist2_self (v : List Q) : (dist2 v v).num = 0 := by
  induction v with
  | nil => rfl
  | cons x xs ih => simp [dist2, qadd, qmul, qsub, ih]

theorem qlt_zero_iff {q : Q} : Q.lt (Q.ofInt 0) q ↔ 0 < q.num := by
  simp [Q.lt, Q.ofInt]

theorem mem_cinsert {a x y : Row} {l : List Row} :
    y ∈ cinsert a x l ↔ y = x ∨ y ∈ l := by
  induction l with
  | nil => simp [cinsert]
  | cons z zs ih =>
      by_cases h : candLE a x z
      · rw [cinsert, if_pos h]; simp
      · rw [cinsert, if_neg h]; simp [ih]; tauto

theorem mem_csort {a y : Row} {l : List Row} : y ∈ csort a l ↔ y ∈ l := by
  induction l with
  | nil => exact Iff.rfl
  | cons z zs ih => rw [csort]; simp [mem_cinsert, ih]

theorem mem_rankedCandidates {seed : Nat} {L : Q} {k : Int} {minority : List Row}
    {a b : Row} (h : b ∈ rankedCandidates seed L k minority a) :
    b ∈ minority ∧ Q.lt (Q.ofInt 0) (dist2 a.features b.features) := by
  have h1 : b ∈ csort a (neighborPool seed L minority a) := List.take_subset _ _ h
  rw [mem_csort, neighborPool, List.mem_filter] at h1
  obtain ⟨hmem, hp⟩ := h1
  rw [Bool.and_eq_true, decide_eq_true_eq] at hp
  exact ⟨hmem, hp.2⟩

theorem rankedCandidates_k_nonpos {seed : Nat} {L : Q} {minority : List Row} {a : Row}
    {k : Int} (hk : k ≤ 0) : rankedCandidates seed L k minority a = [] := by
  rw [rankedCandidates, Int.toNat_of_nonpos hk, List.take_zero]

theorem rankedCandidates_self_only (seed : Nat) (L : Q) (k : Int) (a : Row) :
    rankedCandidates seed L k [a] a = [] := by
  have hd : decide (Q.lt (Q.ofInt 0) (dist2 a.features a.features)) = false := by
    apply decide_eq_false
    rw [qlt_zero_iff, dist2_self]
    exact lt_irrefl 0
  simp [rankedCandidates, neighborPool, csort, hd]

theorem listMax_mem {l : List Q} {m : Q} (h : listMax l = some m) : m ∈ l := by
  induction l generalizing m with
  | nil => simp [listMax] at h
  | cons x xs ih =>
      cases hx : listMax xs with
      | none =>
          rw [listMax] at h
          simp only [hx, Option.some.injEq] at h
          subst h
          exact List.mem_cons_self _ _
      | some m' =>
          rw [listMax] at h
          simp only [hx, Option.some.injEq] at h
          by_cases hle : Q.le x m'
          · rw [if_pos hle] at h
            subst h
            exact List.mem_cons_of_mem _ (ih hx)
          · rw [if_neg hle] at h
            subst h
            exact List.mem_cons_self _ _

theorem listMax_isSome {l : List Q} (h : l ≠ []) : ∃ m, listMax l = some m := by
  cases l with
  | nil => exact absurd rfl h
  | cons x xs => exact ⟨_, rfl⟩

theorem filter_eq_singleton_of_nodup {f : Row → Q} {m : Q} {cs : List Row}
    (hd : (cs.map f).Nodup) (hm : m ∈ cs.map f) :
    (cs.filter (fun n => decide (f n = m))).length = 1 := by
  induction cs with
  | nil => simp at hm
  | cons c cs ih =>
      simp only [List.map_cons, List.nodup_cons] at hd
      obtain ⟨hnotin, hd'⟩ := hd
      by_cases hc : f c = m
      · rw [List.filter_cons_of_pos (by simp [hc])]
        have hnil : cs.filter (fun n => decide (f n = m)) = [] := by
          rw [List.filter_eq_nil_iff]
          intro n hn
          simp only [decide_eq_true_eq]
          intro he
          exact hnotin (hc ▸ he ▸ List.mem_map.mpr ⟨n, hn, rfl⟩)
        simp [hnil]
      · rw [List.filter_cons_of_neg (by simp [hc])]
        apply ih hd'
        rcases List.mem_cons.mp hm with he | hmm
        · exact absurd he.symm hc
        · exact hmm

theorem selectNeighbors_nil (rd : Nat → Nat → Q) (s : Row) :
    selectNeighbors rd s [] = [] := rfl

theorem mem_selectNeighbors {rd : Nat → Nat → Q} {s n : Row} {cs : List Row}
    (h : n ∈ selectNeighbors rd s cs) : n ∈ cs := by
  rw [selectNeighbors] at h
  cases hx : listMax (cs.map fun n => rd s.id n.id) with
  | none => rw [hx] at h; simp at h
  | some m => rw [hx] at h; exact (List.mem_filter.mp h).1

theorem length_selectNeighbors {rd : Nat → Nat → Q} {s : Row} {cs : List Row}
    (hne : cs ≠ []) (hd : (cs.map (fun n => rd s.id n.id)).Nodup) :
    (selectNeighbors rd s cs).length = 1 := by
  obtain ⟨m, hm⟩ :=
    listMax_isSome (l := cs.map (fun n => rd s.id n.id)) (by simpa using hne)
  rw [selectNeighbors, hm]
  exact filter_eq_singleton_of_nodup hd (listMax_mem hm)

theorem mem_generateBatch {cands : Row → List Row} {br : BatchRand}
    {minority : List Row} {r : Row} (h : r ∈ generateBatch cands br minority) :
    ∃ s n, s ∈ minority ∧ n ∈ selectNeighbors br.rd s (cands s) ∧ r = synthRow br s n := by
  induction minority with
  | nil => simp [generateBatch] at h
  | cons s rest ih =>
      rw [generateBatch, List.mem_append] at h
      rcases h with h | h
      · rcases List.mem_map.mp h with ⟨n, hn, he⟩
        exact ⟨s, n, List.mem_cons_self _ _, hn, he.symm⟩
      · rcases ih h with ⟨s', n, hs, hn, he⟩
        exact ⟨s', n, List.mem_cons_of_mem _ hs, hn, he⟩

theorem length_generateBatch (cands : Row → List Row) (br : BatchRand)
    (minority : List Row) :
    (generateBatch cands br minority).length =
      (minority.map (fun s => (selectNeighbors br.rd s (cands s)).length)).sum := by
  induction minority with
  | nil => rfl
  | cons s rest ih => simp [generateBatch, ih]

theorem generateBatch_eq_nil {cands : Row → List Row} {br : BatchRand}
    {minority : List Row} (h : ∀ s ∈ minority, cands s = []) :
    generateBatch cands br minority = [] := by
  induction minority with
  | nil => rfl
  | cons s rest ih =>
      rw [generateBatch, h s (List.mem_cons_self _ _)]
      rw [ih (fun x hx => h x (List.mem_cons_of_mem _ hx))]
      rfl

theorem mem_allBatches {cands : Row → List Row} {rr : Nat → BatchRand}
    {minority : List Row} {n : Nat} {r : Row} (h : r ∈ allBatches cands rr minority n) :
    ∃ i, i < n ∧ r ∈ generateBatch cands (rr i) minority := by
  induction n with
  | zero => simp [allBatches] at h
  | succ n ih =>
      rw [allBatches, List.mem_append] at h
      rcases h with h | h
      · rcases ih h with ⟨i, hi, hm⟩
        exact ⟨i, Nat.lt_succ_of_lt hi, hm⟩
      · exact ⟨n, Nat.lt_succ_self n, h⟩

theorem allBatches_eq_nil {cands : Row → List Row} {rr : Nat → BatchRand}
    {minority : List Row} (h : ∀ s ∈ minority, cands s = []) (n : Nat) :
    allBatches cands rr minority n = [] := by
  induction n with
  | zero => rfl
  | succ n ih => rw [allBatches, ih, generateBatch_eq_nil h]; rfl

theorem length_allBatches_of_const {cands : Row → List Row} {rr : Nat → BatchRand}
    {minority : List Row} {m n : Nat}
    (h : ∀ i, i < n → (generateBatch cands (rr i) minority).length = m) :
    (allBatches cands rr minority n).length = n * m := by
  induction n with
  | zero => simp [allBatches]
  | succ n ih =>
      rw [allBatches, List.length_append,
        ih (fun i hi => h i (Nat.lt_succ_of_lt hi)), h n (Nat.lt_succ_self n)]
      ring

theorem list_sum_map_one {l : List Row} {f : Row → Nat} (h : ∀ s ∈ l, f s = 1) :
    (l.map f).sum = l.length := by
  induction l with
  | nil => rfl
  | cons s rest ih =>
      simp [h s (List.mem_cons_self _ _), ih (fun x hx => h x (List.mem_cons_of_mem _ hx)),
        Nat.add_comm]

/-! Lemmas about the stable key sort, the shuffle and the row-number windows. -/

theorem length_kinsert (x : Nat × Row) (l : List (Nat × Row)) :
    (kinsert x l).length = l.length + 1 := by
  induction l with
  | nil => rfl
  | cons y ys ih =>
      by_cases h : x.1 ≤ y.1
      · rw [kinsert, if_pos h]; rfl
      · rw [kinsert, if_neg h]; simp [ih]

theorem length_ksort (l : List (Nat × Row)) : (ksort l).length = l.length := by
  induction l with
  | nil => rfl
  | cons x xs ih => rw [ksort, length_kinsert, ih]; rfl

theorem mem_kinsert {x y : Nat × Row} {l : List (Nat × Row)} :
    y ∈ kinsert x l ↔ y = x ∨ y ∈ l := by
  induction l with
  | nil => simp [kinsert]
  | cons z zs ih =>
      by_cases h : x.1 ≤ z.1
      · rw [kinsert, if_pos h]; simp
      · rw [kinsert, if_neg h]
        simp [ih]
        tauto

theorem mem_ksort {y : Nat × Row} {l : List (Nat × Row)} : y ∈ ksort l ↔ y ∈ l := by
  induction l with
  | nil => exact Iff.rfl
  | cons x xs ih => rw [ksort]; simp [mem_kinsert, ih]

theorem kinsert_eq_cons {x : Nat × Row} {l : List (Nat × Row)}
    (h : ∀ y ∈ l, x.1 ≤ y.1) : kinsert x l = x :: l := by
  cases l with
  | nil => rfl
  | cons y ys => rw [kinsert, if_pos (h y (List.mem_cons_self _ _))]

theorem ksorted_kinsert {x : Nat × Row} {l : List (Nat × Row)}
    (h : List.Pairwise (fun a b : Nat × Row => a.1 ≤ b.1) l) :
    List.Pairwise (fun a b : Nat × Row => a.1 ≤ b.1) (kinsert x l) := by
  induction l with
  | nil => exact List.pairwise_singleton _ _
  | cons y ys ih =>
      by_cases hle : x.1 ≤ y.1
      · rw [kinsert, if_pos hle, List.pairwise_cons]
        refine ⟨?_, h⟩
        intro z hz
        rcases List.mem_cons.mp hz with rfl | hz
        · exact hle
        · exact le_trans hle ((List.pairwise_cons.mp h).1 z hz)
      · rw [kinsert, if_neg hle, List.pairwise_cons]
        have h' := List.pairwise_cons.mp h
        constructor
        · intro z hz
          rcases mem_kinsert.mp hz with rfl | hz
          · exact le_of_not_le hle
          · exact h'.1 z hz
        · exact ih h'.2

theorem ksort_sorted (l : List (Nat × Row)) :
    List.Pairwise (fun a b : Nat × Row => a.1 ≤ b.1) (ksort l) := by
  induction l with
  | nil => exact List.Pairwise.nil
  | cons x xs ih => exact ksorted_kinsert ih

theorem ksort_eq_self {l : List (Nat × Row)}
    (h : List.Pairwise (fun a b : Nat × Row => a.1 ≤ b.1) l) : ksort l = l := by
  induction l with
  | nil => rfl
  | cons x xs ih =>
      have h' := List.pairwise_cons.mp h
      rw [ksort, ih h'.2, kinsert_eq_cons h'.1]

theorem filter_kinsert (p : Nat × Row → Bool) (x : Nat × Row) (l : List (Nat × Row))
    (h : List.Pairwise (fun a b : Nat × Row => a.1 ≤ b.1) l) :
    List.filter p (kinsert x l) =
      if p x then kinsert x (List.filter p l) else List.filter p l := by
  induction l with
  | nil =>
      by_cases hp : p x
      · rw [if_pos hp]
        simp [kinsert, hp]
      · rw [if_neg hp]
        simp [kinsert, hp]
  | cons y ys ih =>
      have hy : ∀ z ∈ ys, y.1 ≤ z.1 := (List.pairwise_cons.mp h).1
      have hys := (List.pairwise_cons.mp h).2
      by_cases hle : x.1 ≤ y.1
      · rw [kinsert, if_pos hle]
        by_cases hp : p x
        · rw [if_pos hp]
          by_cases hpy : p y
          · rw [List.filter_cons_of_pos hp, List.filter_cons_of_pos hpy, kinsert,
              if_pos hle]
          · rw [List.filter_cons_of_pos hp, List.filter_cons_of_neg hpy]
            have hall : ∀ z ∈ List.filter p ys, x.1 ≤ z.1 := fun z hz =>
              le_trans hle (hy z (List.mem_filter.mp hz).1)
            rw [kinsert_eq_cons hall]
        · rw [if_neg hp, List.filter_cons_of_neg hp]
      · rw [kinsert, if_neg hle]
        by_cases hpy : p y
        · rw [List.filter_cons_of_pos hpy, List.filter_cons_of_pos hpy, ih hys]
          by_cases hp : p x
          · rw [if_pos hp, if_pos hp, kinsert, if_neg hle]
          · rw [if_neg hp, if_neg hp]
        · rw [List.filter_cons_of_neg hpy, List.filter_cons_of_neg hpy, ih hys]

theorem filter_ksort (p : Nat × Row → Bool) (l : List (Nat × Row)) :
    List.filter p (ksort l) = ksort (List.filter p l) := by
  induction l with
  | nil => rfl
  | cons x xs ih =>
      rw [ksort, filter_kinsert p x (ksort xs) (ksort_sorted xs), ih]
      by_cases hp : p x
      · rw [if_pos hp, List.filter_cons_of_pos hp, ksort]
      · rw [if_neg hp, List.filter_cons_of_neg hp]

theorem filter_map_snd (p : Row → Bool) (l : List (Nat × Row)) :
    (l.map Prod.snd).filter p = (l.filter (fun x => p x.2)).map Prod.snd := by
  induction l with
  | nil => rfl
  | cons x xs ih =>
      by_cases hp : p x.2
      · rw [List.map_cons, List.filter_cons_of_pos hp,
          List.filter_cons_of_pos (p := fun y : Nat × Row => p y.2) hp, List.map_cons, ih]
      · rw [List.map_cons, List.filter_cons_of_neg hp,
          List.filter_cons_of_neg (p := fun y : Nat × Row => p y.2) hp, ih]

theorem map_snd_enumFrom (n : Nat) (l : List Row) :
    (enumFrom n l).map Prod.snd = l := by
  induction l generalizing n with
  | nil => rfl
  | cons r rs ih => rw [enumFrom, List.map_cons, ih]

theorem length_enumFrom (n : Nat) (l : List Row) :
    (enumFrom n l).length = l.length := by
  induction l generalizing n with
  | nil => rfl
  | cons r rs ih => rw [enumFrom, List.length_cons, ih, List.length_cons]

theorem mem_enumFrom {n : Nat} {l : List Row} {x : Nat × Row} (h : x ∈ enumFrom n l) :
    n ≤ x.1 ∧ x.2 ∈ l := by
  induction l generalizing n with
  | nil => simp [enumFrom] at h
  | cons r rs ih =>
      rw [enumFrom, List.mem_cons] at h
      rcases h with rfl | h
      · exact ⟨le_refl _, List.mem_cons_self _ _⟩
      · obtain ⟨h1, h2⟩ := ih h
        exact ⟨le_trans (Nat.le_succ n) h1, List.mem_cons_of_mem _ h2⟩

theorem enumFrom_sorted (n : Nat) (l : List Row) :
    List.Pairwise (fun a b : Nat × Row => a.1 ≤ b.1) (enumFrom n l) := by
  induction l generalizing n with
  | nil => exact List.Pairwise.nil
  | cons r rs ih =>
      rw [enumFrom, List.pairwise_cons]
      exact ⟨fun z hz => le_trans (Nat.le_succ n) (mem_enumFrom hz).1, ih (n + 1)⟩

theorem length_shuffle (seed : Nat) (l : List Row) :
    (shuffle seed l).length = l.length := by
  rw [shuffle, List.length_map, length_ksort, List.length_zip, List.length_map,
    List.length_range]
  exact min_self _

theorem mem_shuffle {seed : Nat} {l : List Row} {r : Row} (h : r ∈ shuffle seed l) :
    r ∈ l := by
  rw [shuffle] at h
  rcases List.mem_map.mp h with ⟨⟨key, r'⟩, hmem, he⟩
  rw [mem_ksort] at hmem
  cases he
  exact (List.of_mem_zip hmem).2

theorem shuffle_singleton (seed : Nat) (m : Row) : shuffle seed [m] = [m] := by
  simp [shuffle, List.range_succ, ksort, kinsert]

/-! Lemmas connecting the pieces of `smote`. -/

theorem smoteIndexOf_eq (cfg : SmoteConfig) (rr : Nat → BatchRand) (df : List Row)
    (s : Row) :
    smoteIndexOf cfg rr df s =
      rankedCandidates cfg.seed cfg.bucketLength cfg.k
        (df.filter (fun r => decide (r.label = cfg.positive_label))) s := rfl

theorem label_synthRow {br : BatchRand} {s n : Row} {p : Int}
    (hs : s.label = p) (hn : n.label = p) : (synthRow br s n).label = p := by
  show pickSide (br.side 0) s.label n.label = p
  cases br.side 0 with
  | A => exact hs
  | B => exact hn

theorem label_minorityDerived {cfg : SmoteConfig} {rr : Nat → BatchRand} {df : List Row}
    {r : Row} (h : r ∈ minorityDerived cfg rr df) : r.label = cfg.positive_label := by
  simp only [minorityDerived, List.mem_append] at h
  rcases h with h | h
  · rcases mem_allBatches h with ⟨i, _, hb⟩
    rcases mem_generateBatch hb with ⟨s, n, hs, hn, rfl⟩
    have hs' := (List.mem_filter.mp hs).2
    rw [decide_eq_true_eq] at hs'
    have hn' : n ∈ df.filter (fun r => decide (r.label = cfg.positive_label)) :=
      (mem_rankedCandidates (mem_selectNeighbors hn)).1
    have hn'' := (List.mem_filter.mp hn').2
    rw [decide_eq_true_eq] at hn''
    exact label_synthRow hs' hn''
  · have h' := (List.mem_filter.mp h).2
    rwa [decide_eq_true_eq] at h'

theorem smote_eq_ok {cfg : SmoteConfig} {rr : Nat → BatchRand} {df : List Row}
    (h1 : df.filter (fun r => decide (r.label = cfg.positive_label)) ≠ [])
    (h2 : 0 < cfg.multiplier) :
    smote cfg rr df = Except.ok
      ((ksort (enumFrom 1 (shuffle cfg.seed (minorityDerived cfg rr df)) ++
        enumFrom 1 (df.filter (fun r => decide (r.label = cfg.negative_label))))).map
          Prod.snd) := by
  rw [smote]
  simp only [minorityDerived]
  rw [if_neg, if_neg]
  · exact Int.not_le.mpr h2
  · intro hmt
    exact h1 (List.isEmpty_iff.mp hmt)

theorem smote_ok_inv {cfg : SmoteConfig} {rr : Nat → BatchRand} {df : List Row}
    {l : List Row} (h : smote cfg rr df = Except.ok l) :
    df.filter (fun r => decide (r.label = cfg.positive_label)) ≠ [] ∧
      0 < cfg.multiplier ∧
      l = (ksort (enumFrom 1 (shuffle cfg.seed (minorityDerived cfg rr df)) ++
        enumFrom 1 (df.filter (fun r => decide (r.label = cfg.negative_label))))).map
          Prod.snd := by
  by_cases h1 : df.filter (fun r => decide (r.label = cfg.positive_label)) = []
  · rw [smote, if_pos (List.isEmpty_iff.mpr h1)] at h
    exact absurd h (by simp)
  · by_cases h2 : cfg.multiplier ≤ 0
    · rw [smote, if_neg (fun hmt => h1 (List.isEmpty_iff.mp hmt)), if_pos h2] at h
      exact absurd h (by simp)
    · have h2' : 0 < cfg.multiplier := Int.not_le.mp h2
      have he := @smote_eq_ok cfg rr df h1 h2'
      rw [he] at h
      injection h with h
      exact ⟨h1, h2', h.symm⟩

theorem mem_smote_output {cfg : SmoteConfig} {rr : Nat → BatchRand} {df : List Row}
    {l : List Row} {r : Row} (h : smote cfg rr df = Except.ok l) (hr : r ∈ l) :
    r ∈ minorityDerived cfg rr df ∨
      r ∈ df.filter (fun x => decide (x.label = cfg.negative_label)) := by
  obtain ⟨h1, h2, rfl⟩ := smote_ok_inv h
  rcases List.mem_map.mp hr with ⟨x, hx, rfl⟩
  rw [mem_ksort, List.mem_append] at hx
  rcases hx with hx | hx
  · exact Or.inl (mem_shuffle (mem_enumFrom hx).2)
  · exact Or.inr (mem_enumFrom hx).2

theorem inheritAux_get (side : Nat → Side) :
    ∀ (j0 j : Nat) (xs ys : List Int) (x y : Int),
      xs.get? j = some x → ys.get? j = some y →
      (inheritAux side j0 xs ys).get? j = some (pickSide (side (j0 + j)) x y) := by
  intro j0 j xs
  induction xs generalizing j0 j with
  | nil => intro ys x y hx; simp [List.get?] at hx
  | cons a xs ih =>
      intro ys x y hx hy
      cases ys with
      | nil => simp [List.get?] at hy
      | cons b ys =>
          cases j with
          | zero =>
              simp only [List.get?, Option.some.injEq] at hx hy
              subst hx
              subst hy
              simp [inheritAux, List.get?]
          | succ j =>
              simp only [List.get?] at hx hy
              rw [inheritAux]
              show (inheritAux side (j0 + 1) xs ys).get? j = _
              rw [ih (j0 + 1) j ys x y hx hy]
              have : j0 + 1 + j = j0 + (j + 1) := by omega
              rw [this]

/-! Theorems settling the claims. -/

/-- C7: every neighbor pair retained for synthesis has strictly positive
approximate distance, because zero-distance pairs (in particular the
self-pair of every instance) are removed before ranking; hence the source's
and neighbor's feature vectors differ and no instance is its own neighbor. -/
theorem retained_pairs_never_self {seed : Nat} {L : Q} {k : Int} {minority : List Row}
    {a b : Row} (h : b ∈ rankedCandidates seed L k minority a) :
    Q.lt (Q.ofInt 0) (dist2 a.features b.features) ∧ a.features ≠ b.features ∧ a ≠ b := by
  obtain ⟨_, hpos⟩ := mem_rankedCandidates h
  refine ⟨hpos, ?_, ?_⟩
  · intro he
    rw [he, qlt_zero_iff, dist2_self] at hpos
    exact lt_irrefl 0 hpos
  · intro he
    rw [he, qlt_zero_iff, dist2_self] at hpos
    exact lt_irrefl 0 hpos

/-- Witness for the C7 theorem: in the spec's concrete scenario, B is a
retained candidate of A and the conclusions hold there. -/
theorem retained_pairs_never_self_witness :
    rB ∈ rankedCandidates 0 (Q.ofInt 1000000) 1 [rA, rB] rA ∧
      (Q.lt (Q.ofInt 0) (dist2 rA.features rB.features) ∧
        rA.features ≠ rB.features ∧ rA ≠ rB) :=
  ⟨by decide, @retained_pairs_never_self 0 (Q.ofInt 1000000) 1 [rA, rB] rA rB (by decide)⟩

/-- C2: every row of a successful `smote` output is either an input row or a
synthetic instance whose feature vector equals `b + u * (a - b)` where `a` is
the feature vector of its minority source, `b` the feature vector of a
selected candidate neighbor of that source, and `u` the interpolation factor
drawn for that row, lying in `[0, 1)` whenever all the run's uniform draws
do. -/
theorem synthetic_rows_interpolate {cfg : SmoteConfig} {rr : Nat → BatchRand}
    {df l : List Row}
    (hu : ∀ b i j, Q.le (Q.ofInt 0) ((rr b).u i j) ∧ Q.lt ((rr b).u i j) (Q.ofInt 1))
    (h : smote cfg rr df = Except.ok l) {r : Row} (hr : r ∈ l) :
    r ∈ df ∨
      ∃ s n u, s ∈ df.filter (fun x => decide (x.label = cfg.positive_label)) ∧
        n ∈ smoteIndexOf cfg rr df s ∧
        (Q.le (Q.ofInt 0) u ∧ Q.lt u (Q.ofInt 1)) ∧
        r.features =
          add_vector_fn n.features (subtract_vector_fn u s.features n.features) := by
  rcases mem_smote_output h hr with hm | hm
  · simp only [minorityDerived, List.mem_append] at hm
    rcases hm with hm | hm
    · rcases mem_allBatches hm with ⟨i, _, hb⟩
      rcases mem_generateBatch hb with ⟨s, n, hs, hn, rfl⟩
      exact Or.inr
        ⟨s, n, (rr i).u s.id n.id, hs, mem_selectNeighbors hn, hu i s.id n.id, rfl⟩
    · exact Or.inl (List.mem_filter.mp hm).1
  · exact Or.inl (List.mem_filter.mp hm).1

/-- Witness for the C2 theorem: in the spec's concrete scenario run, the
synthetic row with features `[1, 0]` (represented as `2/2, 0/2`)
interpolates between its source A and neighbor B with factor `1/2`. -/
theorem synthetic_rows_interpolate_witness :
    (⟨0, 1, [⟨2, 1⟩, ⟨0, 1⟩], []⟩ : Row) ∈ dfW ∨
      ∃ s n u, s ∈ dfW.filter (fun x => decide (x.label = cfgW.positive_label)) ∧
        n ∈ smoteIndexOf cfgW rrW dfW s ∧
        (Q.le (Q.ofInt 0) u ∧ Q.lt u (Q.ofInt 1)) ∧
        (⟨0, 1, [⟨2, 1⟩, ⟨0, 1⟩], []⟩ : Row).features =
          add_vector_fn n.features (subtract_vector_fn u s.features n.features) :=
  synthetic_rows_interpolate
    (fun b i j =>
      show Q.le (Q.ofInt 0) (⟨1, 1⟩ : Q) ∧ Q.lt (⟨1, 1⟩ : Q) (Q.ofInt 1) by decide)
    (show smote cfgW rrW dfW = Except.ok
      [⟨0, 1, [⟨2, 1⟩, ⟨0, 1⟩], []⟩, rC, ⟨1, 1, [⟨2, 1⟩, ⟨0, 1⟩], []⟩, rA, rB]
      from rfl)
    (by decide)

/-- C9: re-running with the same configuration (hence the same seed) and the
same input dataset yields the same approximate-neighbor index, whatever the
per-batch randomness of the two runs; every minority instance therefore
receives identical candidate sets in both runs, and the success or failure
of the two runs also agrees. -/
theorem neighbor_index_seed_deterministic (cfg : SmoteConfig) (df : List Row)
    (rr₁ rr₂ : Nat → BatchRand) :
    smoteIndexOf cfg rr₁ df = smoteIndexOf cfg rr₂ df ∧
      (smote cfg rr₁ df).isOk = (smote cfg rr₂ df).isOk := by
  refine ⟨rfl, ?_⟩
  rw [smote, smote]
  by_cases h1 : (df.filter (fun r => decide (r.label = cfg.positive_label))).isEmpty = true
  · rw [if_pos h1, if_pos h1]
  · rw [if_neg h1, if_neg h1]
    by_cases h2 : cfg.multiplier ≤ 0
    · rw [if_pos h2, if_pos h2]
    · rw [if_neg h2, if_neg h2]
      rfl

/-- C10: rows whose label is neither configured label are silently dropped:
whenever the minority partition is nonempty and `multiplier ≥ 1`, `smote`
returns a dataset (it never rejects extra label values) and every output row
carries one of the two configured labels. -/
theorem smote_ignores_extra_labels (cfg : SmoteConfig) (rr : Nat → BatchRand)
    (df : List Row)
    (hne : df.filter (fun r => decide (r.label = cfg.positive_label)) ≠ [])
    (hm : 0 < cfg.multiplier) :
    ∃ l, smote cfg rr df = Except.ok l ∧
      ∀ r ∈ l, r.label = cfg.positive_label ∨ r.label = cfg.negative_label := by
  refine ⟨_, smote_eq_ok hne hm, ?_⟩
  intro r hr
  rcases mem_smote_output (smote_eq_ok hne hm) hr with h | h
  · exact Or.inl (label_minorityDerived h)
  · have h' := (List.mem_filter.mp h).2
    rw [decide_eq_true_eq] at h'
    exact Or.inr h'

/-- Witness for the C10 theorem: a dataset with the extra label `7` is
processed without error and its output uses only the labels 1 and 0. -/
theorem smote_ignores_extra_labels_witness :
    ∃ l, smote cfgW rrW dfThird = Except.ok l ∧
      ∀ r ∈ l, r.label = cfgW.positive_label ∨ r.label = cfgW.negative_label :=
  smote_ignores_extra_labels cfgW rrW dfThird (by decide) (by decide)

/-- C8: inside one batch, the side a column is copied from is a single
per-column choice `br.side`, shared by every synthetic row of the batch: the
label (column 0) and each auxiliary column `j` (column `j + 1`) of every
synthetic row equal the corresponding column of the side chosen once for
that column, never re-randomized per row. -/
theorem batch_inherits_columns_uniformly {cands : Row → List Row} {br : BatchRand}
    {minority : List Row} {r : Row} (h : r ∈ generateBatch cands br minority) :
    ∃ s n, s ∈ minority ∧ n ∈ cands s ∧
      r.label = pickSide (br.side 0) s.label n.label ∧
      r.aux = inheritAux br.side 1 s.aux n.aux ∧
      ∀ j x y, s.aux.get? j = some x → n.aux.get? j = some y →
        r.aux.get? j = some (pickSide (br.side (1 + j)) x y) := by
  rcases mem_generateBatch h with ⟨s, n, hs, hn, rfl⟩
  refine ⟨s, n, hs, mem_selectNeighbors hn, rfl, rfl, ?_⟩
  intro j x y hx hy
  exact inheritAux_get br.side 1 j s.aux n.aux x y hx hy

/-- Witness for the C8 theorem: in a batch over the aux-carrying dataset,
the synthetic row derived from source `rXa` takes its first auxiliary column
from the neighbor side and its second from the source side, as dictated by
the batch's per-column choices. -/
theorem batch_inherits_columns_uniformly_witness :
    ∃ s n, s ∈ dfX ∧ n ∈ smoteIndexOf cfgW rrS dfX s ∧
      (⟨0, 1, [⟨2, 1⟩], [30, 20]⟩ : Row).label =
        pickSide ((rrS 0).side 0) s.label n.label ∧
      (⟨0, 1, [⟨2, 1⟩], [30, 20]⟩ : Row).aux =
        inheritAux (rrS 0).side 1 s.aux n.aux ∧
      ∀ j x y, s.aux.get? j = some x → n.aux.get? j = some y →
        (⟨0, 1, [⟨2, 1⟩], [30, 20]⟩ : Row).aux.get? j =
          some (pickSide ((rrS 0).side (1 + j)) x y) :=
  @batch_inherits_columns_uniformly (smoteIndexOf cfgW rrS dfX) (rrS 0) dfX
    ⟨0, 1, [⟨2, 1⟩], [30, 20]⟩ (by decide)

/-- C1 counterexample: for the valid input `dfDup` (two minority rows with
identical feature vectors and one majority row, `k = 1`, `multiplier = 1`)
every minority pair has distance 0 and is filtered out, so no synthetic row
is generated: the output has 3 rows, not
`|Minority| * (multiplier + 1) + |Majority| = 5`. -/
theorem row_count_formula_fails :
    (dfDup.filter (fun r => decide (r.label = cfgW.positive_label))).length = 2 ∧
      (dfDup.filter (fun r => decide (r.label = cfgW.negative_label))).length = 1 ∧
      smote cfgW rrZ dfDup = Except.ok [dup0, rMaj, dup1] ∧
      [dup0, rMaj, dup1].length ≠ 2 * (1 + 1) + 1 :=
  ⟨by decide, by decide, rfl, by decide⟩

/-- C1 (amended): the row-count formula
`|Minority| * (multiplier + 1) + |Majority|` holds provided every minority
instance keeps at least one candidate neighbor and, in every batch, its
selection draws are pairwise distinct (unique maximum), so that each source
emits exactly one synthetic row per batch. -/
theorem row_count_with_full_selection (cfg : SmoteConfig) (rr : Nat → BatchRand)
    (df : List Row)
    (hm : 0 < cfg.multiplier)
    (hne : df.filter (fun r => decide (r.label = cfg.positive_label)) ≠ [])
    (hc : ∀ i, i < cfg.multiplier.toNat →
      ∀ s ∈ df.filter (fun r => decide (r.label = cfg.positive_label)),
        smoteIndexOf cfg rr df s ≠ [] ∧
          ((smoteIndexOf cfg rr df s).map (fun n => (rr i).rd s.id n.id)).Nodup) :
    ∃ l, smote cfg rr df = Except.ok l ∧
      l.length =
        (df.filter (fun r => decide (r.label = cfg.positive_label))).length *
            (cfg.multiplier.toNat + 1) +
          (df.filter (fun r => decide (r.label = cfg.negative_label))).length := by
  refine ⟨_, smote_eq_ok hne hm, ?_⟩
  rw [List.length_map, length_ksort, List.length_append, length_enumFrom,
    length_enumFrom, length_shuffle]
  have hbatch : ∀ i, i < cfg.multiplier.toNat →
      (generateBatch (smoteIndexOf cfg rr df) (rr i)
        (df.filter (fun r => decide (r.label = cfg.positive_label)))).length =
      (df.filter (fun r => decide (r.label = cfg.positive_label))).length := by
    intro i hi
    rw [length_generateBatch]
    apply list_sum_map_one
    intro s hs
    exact length_selectNeighbors (hc i hi s hs).1 (hc i hi s hs).2
  have hmd : (minorityDerived cfg rr df).length =
      cfg.multiplier.toNat *
          (df.filter (fun r => decide (r.label = cfg.positive_label))).length +
        (df.filter (fun r => decide (r.label = cfg.positive_label))).length := by
    simp only [minorityDerived]
    rw [List.length_append, length_allBatches_of_const hbatch]
  rw [hmd]
  ring

/-- Witness for the amended C1 theorem at the spec's concrete scenario:
both minority instances keep one candidate and draws are distinct, and the
output indeed has `2 * (1 + 1) + 1 = 5` rows. -/
theorem row_count_with_full_selection_witness :
    ∃ l, smote cfgW rrW dfW = Except.ok l ∧
      l.length =
        (dfW.filter (fun r => decide (r.label = cfgW.positive_label))).length *
            (cfgW.multiplier.toNat + 1) +
          (dfW.filter (fun r => decide (r.label = cfgW.negative_label))).length :=
  row_count_with_full_selection cfgW rrW dfW (by decide) (by decide) (by decide)

/-- C3 counterexample: with `k = 2` and all selection draws equal, every
source's maximal draw is attained by both of its candidates, so
`where(rand == max_rand)` keeps two rows per source: the batch over the
three-row minority set emits 6 synthetic rows instead of one per source, and
the run yields 9 rows instead of `3 * (1 + 1) = 6`. -/
theorem tie_keeps_all_maximal_rows :
    (selectNeighbors (rrZ 0).rd (⟨0, 1, [Q.ofInt 0], []⟩ : Row)
        (smoteIndexOf cfgTri rrZ dfTri ⟨0, 1, [Q.ofInt 0], []⟩)).length = 2 ∧
      (smote cfgTri rrZ dfTri).map List.length = Except.ok 9 ∧ (9 : Nat) ≠ 3 * (1 + 1) :=
  ⟨by decide, rfl, by decide⟩

/-- C3 (amended): a source with an empty candidate list contributes no
synthetic row; a source whose selection draws over its nonempty candidate
list are pairwise distinct contributes exactly one; in general the batch
size is the sum over sources of the number of candidates attaining the
maximal draw. -/
theorem batch_contribution_per_source (cands : Row → List Row) (br : BatchRand)
    (minority : List Row) :
    ((generateBatch cands br minority).length =
        (minority.map (fun s => (selectNeighbors br.rd s (cands s)).length)).sum) ∧
      (∀ s, cands s = [] → selectNeighbors br.rd s (cands s) = []) ∧
      (∀ s, cands s ≠ [] →
        ((cands s).map (fun n => br.rd s.id n.id)).Nodup →
        (selectNeighbors br.rd s (cands s)).length = 1) := by
  refine ⟨length_generateBatch cands br minority, ?_, ?_⟩
  · intro s hcs
    rw [hcs]
    rfl
  · intro s hcs hd
    exact length_selectNeighbors hcs hd

/-- Witness for the amended C3 theorem: the batch-size equation at the
spec's concrete scenario, the empty-candidate case at the single-minority
dataset, and the unique-pick case for source A. -/
theorem batch_contribution_per_source_witness :
    ((generateBatch (smoteIndexOf cfgW rrW dfW) (rrW 0) [rA, rB]).length =
        ([rA, rB].map
          (fun s => (selectNeighbors (rrW 0).rd s (smoteIndexOf cfgW rrW dfW s)).length)).sum) ∧
      selectNeighbors (rrZ 0).rd (⟨0, 1, [Q.ofInt 0], []⟩ : Row)
        (smoteIndexOf cfgOne rrZ dfOne ⟨0, 1, [Q.ofInt 0], []⟩) = [] ∧
      (selectNeighbors (rrW 0).rd rA (smoteIndexOf cfgW rrW dfW rA)).length = 1 :=
  ⟨(batch_contribution_per_source (smoteIndexOf cfgW rrW dfW) (rrW 0) [rA, rB]).1,
    (batch_contribution_per_source (smoteIndexOf cfgOne rrZ dfOne) (rrZ 0)
      [⟨0, 1, [Q.ofInt 0], []⟩]).2.1 _ (by decide),
    (batch_contribution_per_source (smoteIndexOf cfgW rrW dfW) (rrW 0) [rA, rB]).2.2
      rA (by decide) (by decide)⟩

/-- C4 counterexample: minority-derived and majority rows are indexed from 1
independently, so sorting the union by the shared `row_number` interleaves
the groups: on `dfDup` the majority row (label 0) sits between the two
minority rows (label 1) in the output, refuting that minority-derived rows
as a group precede majority rows. -/
theorem group_precedence_fails :
    smote cfgW rrZ dfDup = Except.ok [dup0, rMaj, dup1] ∧
      ¬ minorityPrecedesMajority cfgW.positive_label cfgW.negative_label
        [dup0, rMaj, dup1] :=
  ⟨rfl, by decide⟩

/-- C4 (amended): the final sort by the shared 1-based index interleaves the
two groups rather than placing all minority-derived rows first; what holds
is that the majority rows appear in the output exactly as in the input (same
rows, same relative order), and the minority-derived rows appear exactly in
their shuffled order. -/
theorem output_group_structure (cfg : SmoteConfig) (rr : Nat → BatchRand)
    (df : List Row) (l : List Row)
    (hpn : cfg.positive_label ≠ cfg.negative_label)
    (h : smote cfg rr df = Except.ok l) :
    l.filter (fun r => decide (r.label = cfg.negative_label)) =
        df.filter (fun r => decide (r.label = cfg.negative_label)) ∧
      l.filter (fun r => decide (r.label = cfg.positive_label)) =
        shuffle cfg.seed (minorityDerived cfg rr df) := by
  obtain ⟨h1, h2, rfl⟩ := smote_ok_inv h
  have hAlab : ∀ x ∈ enumFrom 1 (shuffle cfg.seed (minorityDerived cfg rr df)),
      (Prod.snd x).label = cfg.positive_label := fun x hx =>
    label_minorityDerived (mem_shuffle (mem_enumFrom hx).2)
  have hBlab : ∀ x ∈ enumFrom 1 (df.filter (fun r => decide (r.label = cfg.negative_label))),
      (Prod.snd x).label = cfg.negative_label := by
    intro x hx
    have h' := (List.mem_filter.mp (mem_enumFrom hx).2).2
    rwa [decide_eq_true_eq] at h'
  constructor
  · rw [filter_map_snd, filter_ksort, List.filter_append]
    have hAnil : (enumFrom 1 (shuffle cfg.seed (minorityDerived cfg rr df))).filter
        (fun x => decide ((Prod.snd x).label = cfg.negative_label)) = [] := by
      rw [List.filter_eq_nil_iff]
      intro x hx
      simp only [decide_eq_true_eq]
      rw [hAlab x hx]
      exact hpn
    have hBall : (enumFrom 1 (df.filter (fun r => decide (r.label = cfg.negative_label)))).filter
        (fun x => decide ((Prod.snd x).label = cfg.negative_label)) =
        enumFrom 1 (df.filter (fun r => decide (r.label = cfg.negative_label))) := by
      rw [List.filter_eq_self]
      intro x hx
      simp only [decide_eq_true_eq]
      exact hBlab x hx
    rw [hAnil, hBall, List.nil_append,
      ksort_eq_self (enumFrom_sorted 1 _), map_snd_enumFrom]
  · rw [filter_map_snd, filter_ksort, List.filter_append]
    have hAall : (enumFrom 1 (shuffle cfg.seed (minorityDerived cfg rr df))).filter
        (fun x => decide ((Prod.snd x).label = cfg.positive_label)) =
        enumFrom 1 (shuffle cfg.seed (minorityDerived cfg rr df)) := by
      rw [List.filter_eq_self]
      intro x hx
      simp only [decide_eq_true_eq]
      exact hAlab x hx
    have hBnil : (enumFrom 1 (df.filter (fun r => decide (r.label = cfg.negative_label)))).filter
        (fun x => decide ((Prod.snd x).label = cfg.positive_label)) = [] := by
      rw [List.filter_eq_nil_iff]
      intro x hx
      simp only [decide_eq_true_eq]
      rw [hBlab x hx]
      exact fun he => hpn he.symm
    rw [hAall, hBnil, List.append_nil,
      ksort_eq_self (enumFrom_sorted 1 _), map_snd_enumFrom]

/-- Witness for the amended C4 theorem on the duplicated-minority dataset:
the output's majority rows are exactly the input's and the positive-labeled
rows are exactly the shuffled minority-derived rows. -/
theorem output_group_structure_witness :
    [dup0, rMaj, dup1].filter (fun r => decide (r.label = cfgW.negative_label)) =
        dfDup.filter (fun r => decide (r.label = cfgW.negative_label)) ∧
      [dup0, rMaj, dup1].filter (fun r => decide (r.label = cfgW.positive_label)) =
        shuffle cfgW.seed (minorityDerived cfgW rrZ dfDup) :=
  output_group_structure cfgW rrZ dfDup [dup0, rMaj, dup1] (by decide) rfl

/-- C5 counterexample: with `k = 0 < 1` on a valid two-label dataset,
`smote` performs no configuration check and returns a dataset (with no
synthetic rows) instead of failing fast. -/
theorem k_below_one_not_rejected :
    cfgK0.k < 1 ∧
      smote cfgK0 rrZ dfK =
        Except.ok [⟨0, 1, [Q.ofInt 0], []⟩, ⟨2, 0, [Q.ofInt 10], []⟩,
          ⟨1, 1, [Q.ofInt 2], []⟩] :=
  ⟨by decide, rfl⟩

/-- C5 (amended): the only label-count validation lives in
`pre_smote_df_process` (a `ValueError` iff the target column does not have
exactly two distinct values); `smote` itself never validates `k` or
`multiplier`: `k < 1` yields an empty candidate set and a dataset of
`|Minority| + |Majority|` rows without error, while `multiplier < 1` makes
the run fail only at the final `reduce` over an empty batch list (a
`TypeError`, after the neighbor index was already built). -/
theorem validation_behavior :
    (∀ targets : List Int,
        pre_smote_label_check targets =
            Except.error "Target col must have exactly 2 classes" ↔
          targets.dedup.length ≠ 2) ∧
      (∀ cfg : SmoteConfig, ∀ rr : Nat → BatchRand, ∀ df : List Row,
        cfg.k ≤ 0 →
        df.filter (fun r => decide (r.label = cfg.positive_label)) ≠ [] →
        0 < cfg.multiplier →
        ∃ l, smote cfg rr df = Except.ok l ∧
          l.length =
            (df.filter (fun r => decide (r.label = cfg.positive_label))).length +
              (df.filter (fun r => decide (r.label = cfg.negative_label))).length) ∧
      (∀ cfg : SmoteConfig, ∀ rr : Nat → BatchRand, ∀ df : List Row,
        df.filter (fun r => decide (r.label = cfg.positive_label)) ≠ [] →
        cfg.multiplier ≤ 0 →
        smote cfg rr df =
          Except.error "TypeError: reduce() of empty iterable with no initial value") := by
  refine ⟨?_, ?_, ?_⟩
  · intro targets
    by_cases hc : targets.dedup.length ≠ 2
    · simp [pre_smote_label_check, hc]
    · simp [pre_smote_label_check, hc]
  · intro cfg rr df hk hne hm
    have hcand : ∀ s ∈ df.filter (fun r => decide (r.label = cfg.positive_label)),
        smoteIndexOf cfg rr df s = [] := fun s _ => rankedCandidates_k_nonpos hk
    refine ⟨_, smote_eq_ok hne hm, ?_⟩
    rw [List.length_map, length_ksort, List.length_append, length_enumFrom,
      length_enumFrom, length_shuffle]
    have hmd : minorityDerived cfg rr df =
        df.filter (fun r => decide (r.label = cfg.positive_label)) := by
      simp only [minorityDerived]
      rw [allBatches_eq_nil hcand, List.nil_append]
    rw [hmd]
  · intro cfg rr df hne hm0
    rw [smote, if_neg (fun hmt => hne (List.isEmpty_iff.mp hmt)), if_pos hm0]

/-- Witness for the amended C5 theorem: a three-label column is rejected by
the pre-processing check; `k = 0` returns a 3-row dataset without error; and
`multiplier = 0` produces the `reduce` TypeError. -/
theorem validation_behavior_witness :
    (pre_smote_label_check [0, 1, 2] =
        Except.error "Target col must have exactly 2 classes") ∧
      (∃ l, smote cfgK0 rrZ dfK = Except.ok l ∧
        l.length =
          (dfK.filter (fun r => decide (r.label = cfgK0.positive_label))).length +
            (dfK.filter (fun r => decide (r.label = cfgK0.negative_label))).length) ∧
      smote cfgM0 rrZ dfK =
        Except.error "TypeError: reduce() of empty iterable with no initial value" :=
  ⟨(validation_behavior.1 [0, 1, 2]).mpr (by decide),
    validation_behavior.2.1 cfgK0 rrZ dfK (by decide) (by decide) (by decide),
    validation_behavior.2.2 cfgM0 rrZ dfK (by decide) (by decide)⟩

/-- C6 counterexample: with exactly one minority instance, `smote` does not
fail: it returns the original rows (one minority plus the majority), so no
empty-neighbor-set error is ever surfaced. -/
theorem single_minority_no_error :
    (dfOne.filter (fun r => decide (r.label = cfgOne.positive_label))).length = 1 ∧
      smote cfgOne rrZ dfOne =
        Except.ok [⟨0, 1, [Q.ofInt 0], []⟩, ⟨1, 0, [Q.ofInt 5], []⟩] :=
  ⟨by decide, rfl⟩

/-- C6 (amended): when the minority partition is a single row, the self-join
produces only the zero-distance self-pair, which is filtered out, so every
batch is empty and `smote` silently returns a dataset of
`1 + |Majority|` rows (the original rows, no synthetic ones, no error). -/
theorem single_minority_returns_degenerate (cfg : SmoteConfig)
    (rr : Nat → BatchRand) (df : List Row) (m : Row)
    (hmin : df.filter (fun r => decide (r.label = cfg.positive_label)) = [m])
    (hm : 0 < cfg.multiplier) :
    ∃ l, smote cfg rr df = Except.ok l ∧
      l.length = 1 + (df.filter (fun r => decide (r.label = cfg.negative_label))).length := by
  have hne : df.filter (fun r => decide (r.label = cfg.positive_label)) ≠ [] := by
    rw [hmin]
    exact List.cons_ne_nil _ _
  refine ⟨_, smote_eq_ok hne hm, ?_⟩
  rw [List.length_map, length_ksort, List.length_append, length_enumFrom,
    length_enumFrom, length_shuffle]
  have hcand : ∀ s ∈ df.filter (fun r => decide (r.label = cfg.positive_label)),
      smoteIndexOf cfg rr df s = [] := by
    intro s hs
    rw [hmin] at hs
    rcases List.mem_singleton.mp hs with rfl
    rw [smoteIndexOf_eq, hmin]
    exact rankedCandidates_self_only _ _ _ _
  have hmd : (minorityDerived cfg rr df).length = 1 := by
    simp only [minorityDerived]
    rw [allBatches_eq_nil hcand, List.nil_append, hmin]
    rfl
  rw [hmd]

/-- Witness for the amended C6 theorem at the single-minority dataset:
`smote` returns a dataset of `1 + 1` rows. -/
theorem single_minority_returns_degenerate_witness :
    ∃ l, smote cfgOne rrZ dfOne = Except.ok l ∧
      l.length =
        1 + (dfOne.filter (fun r => decide (r.label = cfgOne.negative_label))).length :=
  single_minority_returns_degenerate cfgOne rrZ dfOne ⟨0, 1, [Q.ofInt 0], []⟩
    (by decide) (by decide)

end Smote
